import Mathlib

/-!
Verification of the boxes configuration-file lexer (src/src/lexer.l) against its
specification. The flex actions are embedded shallowly: the scanner's per-rule
actions become pure functions over lists of characters, the scanner state
(`pass_to_flex`, the exclusive start condition) becomes explicit record-passing,
and flex's matching discipline (longest match, earliest rule on ties, `^`
beginning-of-line tracking, `yyless` push-back, `yymore` accumulation) is encoded
in the sample-block scanning loop.
-/

namespace Boxes

/-- The lexer's shape enumeration, from src/src/shape.h line 27:
`NW, NNW, N, NNE, NE, ENE, E, ESE, SE, SSE, S, SSW, SW, WSW, W, WNW`. -/
inductive shape_t where
  | NW | NNW | N | NNE | NE | ENE | E | ESE
  | SE | SSE | S | SSW | SW | WSW | W | WNW
deriving DecidableEq

/-- The token kinds the lexer returns to the parser (parser.h symbols used by
the rules of src/src/lexer.l). `string` carries the decoded text payload,
`keyword` the raw matched text (lexer.l line 374: `yylval->ascii = strdup(yytext)`),
`yrxpflag` a fixed character, `shape` a shape enum value. -/
inductive Token where
  | string (payload : List Char)
  | yunrec
  | ydelimspec
  | yendsample
  | ysample
  | ybox
  | yend
  | yparent
  | ytags
  | yelastic
  | yshapes
  | yreplace
  | yreverse
  | ypadding
  | yto
  | ywith
  | ychgdel
  | yrxpflag (c : Char)
  | keyword (w : List Char)
  | shape (s : shape_t)
deriving DecidableEq

/-- The per-scanner extra data, src/src/lexer.l lines 24-32: the error counter,
the currently active string delimiter character and the currently active string
escape character (field order as in the C struct). -/
structure pass_to_flex where
  yyerrcnt : Nat
  sdel : Char
  sesc : Char
deriving DecidableEq

/-- Valid characters to be used as string delimiters, src/src/lexer.l line 39:
`#define LEX_SDELIM  "\"~'`!@%&*=:;<>?/|.\\"`. -/
def LEX_SDELIM : List Char := "\"~'`!@%&*=:;<>?/|.\\".toList

/-- `LEX_MAX_WARN`, src/src/lexer.l line 71 (`number of lex errors per design`).
Note: the rate-limiting checks at lines 197 and 277 compare against the literal
`5`, not against this constant, which the lexer never reads. -/
def LEX_MAX_WARN : Nat := 3

/-- `change_string_delimiters`, src/src/lexer.l lines 504-526. Returns 1 and
leaves `extra` unchanged when the spec is not exactly two characters, when the
two characters are equal, or when the second character is not in `LEX_SDELIM`;
otherwise sets `sesc` to the first and `sdel` to the second character and
returns 0. -/
def change_string_delimiters (extra : pass_to_flex) (delim_expr : List Char) :
    Nat × pass_to_flex :=
  match delim_expr with
  | [a, b] =>
    if a = b then (1, extra)
    else if b ∈ LEX_SDELIM then (0, { extra with sesc := a, sdel := b })
    else (1, extra)
  | _ => (1, extra)

/-- The scanning loop of the string rule, src/src/lexer.l lines 172-196, on the
text after the opening delimiter. An occurrence of the escape character is
deleted and the following character copied verbatim (if nothing follows, the
loop breaks, i.e. the string is unterminated); an unescaped delimiter ends the
string. Returns the decoded payload together with the number of raw input
characters consumed up to and including the closing delimiter, or `none` when
the text ends before an unescaped delimiter is found. -/
def scanStringLoop (sesc sdel : Char) : List Char → Option (List Char × Nat)
  | [] => none
  | c :: rest =>
    if c = sesc then
      match rest with
      | [] => none
      | d :: rest2 =>
        (scanStringLoop sesc sdel rest2).map (fun pr => (d :: pr.1, pr.2 + 2))
    else if c = sdel then some ([], 1)
    else (scanStringLoop sesc sdel rest).map (fun pr => (c :: pr.1, pr.2 + 1))

/-- The decoded payload of a string body (the text between the opening
delimiter and the end of the line), or `none` when the string is unterminated. -/
def scanString (sesc sdel : Char) (cs : List Char) : Option (List Char) :=
  (scanStringLoop sesc sdel cs).map Prod.fst

/-- Encoding of an intended payload as raw string-body text: each `(true, c)`
entry stands for an escaped character (written as the escape character followed
by `c`), each `(false, c)` for a plain character `c`. -/
def escEncode (e : Char) : List (Bool × Char) → List Char
  | [] => []
  | (b, c) :: ps => (if b then [e, c] else [c]) ++ escEncode e ps

/-- A payload encoding is well formed for escape `e` and delimiter `d` when
every unescaped character is neither `e` nor `d`. -/
def psOk (e d : Char) : List (Bool × Char) → Bool
  | [] => true
  | (b, c) :: ps => (b || (decide (c ≠ e) && decide (c ≠ d))) && psOk e d ps

/-- What the string rule (src/src/lexer.l lines 153-202) produces: the token,
the updated scanner extra data, the diagnostics written, and how many
characters of the match are kept consumed (the rest is given back by
`yyless`). -/
structure StrOutcome where
  tok : Token
  extra : pass_to_flex
  diags : List String
  kept : Nat
deriving DecidableEq

/-- The string rule `<BOX,SHAPES>{SDELIM}.*$`, src/src/lexer.l lines 153-202,
acting on the matched text (opening delimiter through end of line). `none`
models `REJECT` (line 161-163: the leading character is not the currently
registered delimiter). On success the match is trimmed back to the closing
delimiter (`yyless((p - str) + 2 + qcnt)`, line 183); on an unterminated
string the whole match stays consumed, the error counter is incremented and
the diagnostic is emitted only while the counter was below 5 (line 197). -/
def stringRule (extra : pass_to_flex) (ytext : List Char) : Option StrOutcome :=
  match ytext with
  | [] => none
  | c :: rest =>
    if c ≠ extra.sdel then none
    else
      match scanStringLoop extra.sesc extra.sdel rest with
      | some (payload, consumed) =>
        some ⟨Token.string payload, extra, [], consumed + 1⟩
      | none =>
        some ⟨Token.yunrec, { extra with yyerrcnt := extra.yyerrcnt + 1 },
              if extra.yyerrcnt < 5 then ["Unterminated String"] else [],
              rest.length + 1⟩

/-- The exclusive start conditions of the scanner, src/src/lexer.l lines 97-102
(plus flex's implicit `INITIAL`). -/
inductive LexState where
  | INITIAL | BOX | SAMPLE | SHAPES | ELASTIC | DELIMSPEC | PARENT
deriving DecidableEq

/-- The scanner state visible to the rules: the active start condition and the
extra data block. -/
structure Session where
  state : LexState
  extra : pass_to_flex
deriving DecidableEq

/-- The literal `"\\\""` passed to `change_string_delimiters` by the `Box` and
`End` rules (src/src/lexer.l lines 318 and 332): escape `\`, delimiter `"`. -/
def defaultDelimSpec : List Char := ['\\', '"']

/-- The `<INITIAL>Box` rule, src/src/lexer.l lines 314-320: enter `BOX`, clear
the error counter, reset the string delimiters to the default pair, return
`YBOX`. -/
def boxRule (s : Session) : Session × Token :=
  let e1 := { s.extra with yyerrcnt := 0 }
  ({ state := LexState.BOX, extra := (change_string_delimiters e1 defaultDelimSpec).2 },
   Token.ybox)

/-- The `<BOX>End` rule, src/src/lexer.l lines 329-334: enter `INITIAL`, reset
the string delimiters to the default pair (the error counter is not touched),
return `YEND`. -/
def endRule (s : Session) : Session × Token :=
  ({ state := LexState.INITIAL,
     extra := (change_string_delimiters s.extra defaultDelimSpec).2 },
   Token.yend)

/-- The `<DELIMSPEC>[^ \t\r\n]+` rule, src/src/lexer.l lines 138-150: any
non-blank token is taken as a delimiter-change command; the scanner enters
`BOX` before the command is validated, and returns `YUNREC` when
`change_string_delimiters` fails, `YDELIMSPEC` when it succeeds. -/
def delimspecRule (s : Session) (spec : List Char) : Session × Token :=
  let r := change_string_delimiters s.extra spec
  ({ state := LexState.BOX, extra := r.2 },
   if r.1 ≠ 0 then Token.yunrec else Token.ydelimspec)

/-- The character class `[ \t]` of the sample terminator pattern. -/
def isHW (c : Char) : Bool := c = ' ' || c = '\t'

/-- The character class `[ \t\r]` of the sample terminator pattern. -/
def isHWR (c : Char) : Bool := c = ' ' || c = '\t' || c = '\r'

/-- Length of a match of `ends[ \t\r]*$` at the head of the input
(src/src/lexer.l line 287). The letters compare case-insensitively
(`%option case-insensitive`, line 84) and `$` requires the next character to
be a newline, which is not part of the match. -/
def matchEndsFrom (cs : List Char) : Option Nat :=
  match cs with
  | e :: n :: d :: s :: rest =>
    if e.toLower = 'e' && n.toLower = 'n' && d.toLower = 'd' && s.toLower = 's' then
      let k := (rest.takeWhile isHWR).length
      if (rest.drop k).head? = some '\n' then some (4 + k) else none
    else none
  | _ => none

/-- Match of `^[ \t]*ends[ \t\r]*$` (src/src/lexer.l line 242) at the head of
the input, which must be at the beginning of a line: `some w` gives the length
`w` of the leading horizontal whitespace (the full match length is `w` plus
the `matchEndsFrom` length). -/
def matchAnchoredEnds (atBol : Bool) (cs : List Char) : Option Nat :=
  if atBol then
    let w := (cs.takeWhile isHW).length
    match matchEndsFrom (cs.drop w) with
    | some _ => some w
    | none => none
  else none

/-- The whitespace characters stripped from the end of sample content: space,
tab, carriage return and newline. -/
def isWsChar (c : Char) : Bool := c = ' ' || c = '\t' || c = '\r' || c = '\n'

/-- Modelled from the spec: `btrim` (tools.c, not part of src/) removes
trailing whitespace — the spec's trimming that reduces blank-line-only sample
content to empty ("strip trailing blank lines from the decoded result", §4.4);
trailing spaces, tabs, carriage returns and newlines are removed from the end. -/
def btrim (cs : List Char) : List Char :=
  (cs.reverse.dropWhile isWsChar).reverse

/-- Modelled from the spec: `bxs_rtrim` (bxstring.c, not part of src/) removes
trailing whitespace from a decoded string (§4.4's trimming before the final
newline is appended); modelled over the same whitespace characters as `btrim`. -/
def bxs_rtrim (cs : List Char) : List Char :=
  (cs.reverse.dropWhile isWsChar).reverse

/-- What the sample terminator action (src/src/lexer.l lines 242-283) emits
after reconstructing the sample text: the accumulated content `acc` plus the
terminator line's leading whitespace `ws1` plus a newline (the `e` of `ends`
overwritten, line 260) is trimmed by `btrim`; if nothing remains, the
`SAMPLE block must not be empty` diagnostic is emitted while the error counter
is below 5, the counter is incremented and `YUNREC` returned (lines 276-282);
otherwise the payload is the trimmed text with one newline appended
(lines 262-274) and the scanner data is unchanged. -/
def sampleEndsAction (extra : pass_to_flex) (acc ws1 : List Char) :
    Token × List String × pass_to_flex :=
  let sample := btrim (acc ++ ws1 ++ ['\n'])
  if sample.isEmpty then
    (Token.yunrec,
     if extra.yyerrcnt < 5 then ["SAMPLE block must not be empty"] else [],
     { extra with yyerrcnt := extra.yyerrcnt + 1 })
  else
    (Token.string (bxs_rtrim sample ++ ['\n']), [], extra)

/-- One item of the scanner's observable output: a token handed to the parser
or a diagnostic written to the error channel. -/
inductive Emit where
  | tok (t : Token)
  | diag (msg : String)
deriving DecidableEq

/-- The scanning loop in the `SAMPLE` start condition, src/src/lexer.l lines
237-292, made explicit with fuel. Flex picks the longest match, ties going to
the earlier rule; `atBol` tracks flex's beginning-of-line flag, which is set
after each match from the last matched character and is not updated by
`yyless`. The four rules: `\n` (line 237, accumulated via `yymore` only when
text was already accumulated), `^[ \t]*ends[ \t\r]*$` (line 242, emits the
sample payload or the empty-sample failure, then pushes `ends` and the
trailing whitespace back with `yyless`), `.` (line 285, `yymore`), and
`ends[ \t\r]*$` (line 287, returns `YENDSAMPLE` and switches to `BOX`, ending
the loop; the accumulated text is dropped). Returns the emitted items, the
final scanner data and the unconsumed input. -/
def sampleRun :
    pass_to_flex → List Char → Bool → List Char → Nat →
      List Emit × pass_to_flex × List Char
  | extra, _, _, input, 0 => ([], extra, input)
  | extra, acc, atBol, input, fuel + 1 =>
    match matchAnchoredEnds atBol input with
    | some w =>
      let r := sampleEndsAction extra acc (input.take w)
      let rest := sampleRun r.2.2 [] false (input.drop w) fuel
      (r.2.1.map Emit.diag ++ [Emit.tok r.1] ++ rest.1, rest.2)
    | none =>
      match matchEndsFrom input with
      | some k => ([Emit.tok Token.yendsample], extra, input.drop k)
      | none =>
        match input with
        | [] => ([], extra, [])
        | '\n' :: rest =>
          sampleRun extra (if acc.isEmpty then [] else acc ++ ['\n']) true rest fuel
        | c :: rest => sampleRun extra (acc ++ [c]) false rest fuel

/-- A whole scan of a sequence of string-rule matches (one malformed or
well-formed string per line), threading the scanner data: the tokens, the
diagnostics and the final scanner data. A rejected match is skipped. -/
def stringSession :
    pass_to_flex → List (List Char) → List Token × List String × pass_to_flex
  | extra, [] => ([], [], extra)
  | extra, l :: ls =>
    match stringRule extra l with
    | some o =>
      let r := stringSession o.extra ls
      (o.tok :: r.1, o.diags ++ r.2.1, r.2.2)
    | none => stringSession extra ls

/-- The error-counter-relevant events of one scan session: an unterminated
string handed to the string rule, an empty sample block hitting the terminator
action, and the `Box` / `End` keyword rules. -/
inductive LexEvent where
  | malformedString (line : List Char)
  | emptySampleEnd
  | boxKeyword
  | endKeyword
deriving DecidableEq

/-- The effect of one `LexEvent` on the scanner data, with the diagnostics it
writes: the string rule (lines 153-202), the sample terminator action on empty
accumulated content (lines 276-282), the `Box` rule (lines 314-320) and the
`End` rule (lines 329-334). -/
def sessionStep (extra : pass_to_flex) : LexEvent → pass_to_flex × List String
  | LexEvent.malformedString l =>
    match stringRule extra l with
    | some o => (o.extra, o.diags)
    | none => (extra, [])
  | LexEvent.emptySampleEnd =>
    let r := sampleEndsAction extra [] []
    (r.2.2, r.2.1)
  | LexEvent.boxKeyword =>
    ((change_string_delimiters { extra with yyerrcnt := 0 } defaultDelimSpec).2, [])
  | LexEvent.endKeyword =>
    ((change_string_delimiters extra defaultDelimSpec).2, [])

/-- A sequence of events threaded through `sessionStep`, collecting all
diagnostics. -/
def sessionRun (extra : pass_to_flex) : List LexEvent → pass_to_flex × List String
  | [] => (extra, [])
  | e :: es =>
    let r := sessionStep extra e
    let rest := sessionRun r.1 es
    (rest.1, r.2 ++ rest.2)

/-- An event is an error event for delimiter `sd` and escape `se` when it is a
malformed string (opened with `sd`, no unescaped `sd` before end of line) or an
empty sample end; the keyword events are not error events. -/
def errEventOk (sd se : Char) : LexEvent → Bool
  | LexEvent.malformedString l =>
    decide (l.head? = some sd) && (scanString se sd l.tail).isNone
  | LexEvent.emptySampleEnd => true
  | _ => false

/-- Case-insensitive comparison key of a word, as `%option case-insensitive`
(src/src/lexer.l line 84) induces: letters compare by their lower-case form. -/
def lcStr (w : List Char) : List Char := w.map Char.toLower

/-- The keyword rules of src/src/lexer.l, lines 205, 231, 295-334, 337-352,
367-390: the token and the following start condition for a matched word, in
the given start condition. All patterns match case-insensitively; the
general-keyword rule (line 367, `author|designer|created|revision|revdate|indent`)
carries the raw matched text as payload (line 374). Words that are not
keywords (handled by the word/identifier rules) give `none`. -/
def keywordToken (st : LexState) (w : List Char) : Option (Token × LexState) :=
  match st with
  | LexState.INITIAL =>
    if lcStr w = "box".toList then some (Token.ybox, LexState.BOX)
    else if lcStr w = "parent".toList then some (Token.yparent, LexState.PARENT)
    else none
  | LexState.BOX =>
    if lcStr w = "sample".toList then some (Token.ysample, LexState.SAMPLE)
    else if lcStr w = "tags".toList then some (Token.ytags, LexState.BOX)
    else if lcStr w = "elastic".toList then some (Token.yelastic, LexState.ELASTIC)
    else if lcStr w = "shapes".toList then some (Token.yshapes, LexState.SHAPES)
    else if lcStr w = "replace".toList then some (Token.yreplace, LexState.BOX)
    else if lcStr w = "reverse".toList then some (Token.yreverse, LexState.BOX)
    else if lcStr w = "padding".toList then some (Token.ypadding, LexState.BOX)
    else if lcStr w = "to".toList then some (Token.yto, LexState.BOX)
    else if lcStr w = "with".toList then some (Token.ywith, LexState.BOX)
    else if lcStr w = "global".toList then some (Token.yrxpflag 'g', LexState.BOX)
    else if lcStr w = "once".toList then some (Token.yrxpflag 'o', LexState.BOX)
    else if lcStr w = "end".toList then some (Token.yend, LexState.INITIAL)
    else if lcStr w = "author".toList ∨ lcStr w = "designer".toList
        ∨ lcStr w = "created".toList ∨ lcStr w = "revision".toList
        ∨ lcStr w = "revdate".toList ∨ lcStr w = "indent".toList then
      some (Token.keyword w, LexState.BOX)
    else if lcStr w = "delimiter".toList ∨ lcStr w = "delim".toList then
      some (Token.ychgdel, LexState.DELIMSPEC)
    else none
  | LexState.SHAPES | LexState.ELASTIC =>
    if lcStr w = "nw".toList then some (Token.shape shape_t.NW, st)
    else if lcStr w = "nnw".toList then some (Token.shape shape_t.NNW, st)
    else if lcStr w = "n".toList then some (Token.shape shape_t.N, st)
    else if lcStr w = "nne".toList then some (Token.shape shape_t.NNE, st)
    else if lcStr w = "ne".toList then some (Token.shape shape_t.NE, st)
    else if lcStr w = "ene".toList then some (Token.shape shape_t.ENE, st)
    else if lcStr w = "e".toList then some (Token.shape shape_t.E, st)
    else if lcStr w = "ese".toList then some (Token.shape shape_t.ESE, st)
    else if lcStr w = "se".toList then some (Token.shape shape_t.SE, st)
    else if lcStr w = "sse".toList then some (Token.shape shape_t.SSE, st)
    else if lcStr w = "s".toList then some (Token.shape shape_t.S, st)
    else if lcStr w = "ssw".toList then some (Token.shape shape_t.SSW, st)
    else if lcStr w = "sw".toList then some (Token.shape shape_t.SW, st)
    else if lcStr w = "wsw".toList then some (Token.shape shape_t.WSW, st)
    else if lcStr w = "w".toList then some (Token.shape shape_t.W, st)
    else if lcStr w = "wnw".toList then some (Token.shape shape_t.WNW, st)
    else none
  | _ => none

/-- Token-kind eraser: forgets the payload of a `keyword` token (the only
keyword token whose payload is the raw matched text) and keeps every other
token as it is. -/
def tokKind : Token → Token
  | Token.keyword _ => Token.keyword []
  | t => t

lemma change_eq_zero_iff (extra : pass_to_flex) (spec : List Char) :
    (change_string_delimiters extra spec).1 = 0 ↔
      ∃ a b, spec = [a, b] ∧ a ≠ b ∧ b ∈ LEX_SDELIM := by
  cases spec with
  | nil => simp [change_string_delimiters]
  | cons a t =>
    cases t with
    | nil => simp [change_string_delimiters]
    | cons b u =>
      cases u with
      | cons c v => simp [change_string_delimiters]
      | nil =>
        by_cases hab : a = b
        · subst hab
          refine iff_of_false (by simp [change_string_delimiters]) ?_
          rintro ⟨a', b', heq, hne, -⟩
          obtain ⟨rfl, rfl⟩ : a' = a ∧ b' = a := by simpa using heq.symm
          exact hne rfl
        · by_cases hb : b ∈ LEX_SDELIM
          · exact iff_of_true (by simp [change_string_delimiters, hab, hb])
              ⟨a, b, rfl, hab, hb⟩
          · refine iff_of_false (by simp [change_string_delimiters, hab, hb]) ?_
            rintro ⟨a', b', heq, -, hmem⟩
            obtain ⟨rfl, rfl⟩ : a' = a ∧ b' = b := by simpa using heq.symm
            exact hb hmem

lemma change_fail_snd (extra : pass_to_flex) (spec : List Char)
    (h : (change_string_delimiters extra spec).1 ≠ 0) :
    (change_string_delimiters extra spec).2 = extra := by
  cases spec with
  | nil => rfl
  | cons a t =>
    cases t with
    | nil => rfl
    | cons b u =>
      cases u with
      | cons c v => rfl
      | nil =>
        simp only [change_string_delimiters] at h ⊢
        split_ifs at h ⊢ with h1 h2
        · rfl
        · exact absurd rfl h
        · rfl

lemma change_success_sets (extra : pass_to_flex) (a b : Char)
    (h : (change_string_delimiters extra [a, b]).1 = 0) :
    (change_string_delimiters extra [a, b]).2 = { extra with sesc := a, sdel := b } := by
  simp only [change_string_delimiters] at h ⊢
  split_ifs at h ⊢ with h1 h2
  rfl

/-- C1: `change_string_delimiters` succeeds exactly on two-character specs
whose characters differ and whose second character is in `LEX_SDELIM`; on
failure the registry (the whole `pass_to_flex` record, so in particular the
escape and delimiter characters) is unchanged; on success the escape character
becomes the first and the delimiter the second character of the spec. -/
theorem c1_change_string_delimiters_spec (extra : pass_to_flex) (spec : List Char) :
    ((change_string_delimiters extra spec).1 = 0 ↔
      ∃ a b, spec = [a, b] ∧ a ≠ b ∧ b ∈ LEX_SDELIM)
    ∧ ((change_string_delimiters extra spec).1 ≠ 0 →
        (change_string_delimiters extra spec).2 = extra)
    ∧ (∀ a b, spec = [a, b] → (change_string_delimiters extra spec).1 = 0 →
        (change_string_delimiters extra spec).2 = { extra with sesc := a, sdel := b }) := by
  refine ⟨change_eq_zero_iff extra spec, change_fail_snd extra spec, ?_⟩
  rintro a b rfl h
  exact change_success_sets extra a b h

lemma change_default (e : pass_to_flex) :
    change_string_delimiters e defaultDelimSpec
      = (0, { e with sesc := '\\', sdel := '"' }) := by
  have h1 : ('\\' : Char) ≠ '"' := by decide
  have h2 : ('"' : Char) ∈ LEX_SDELIM := by decide
  simp [change_string_delimiters, defaultDelimSpec, h1, h2]

/-- C6: recognizing `box` resets the delimiter pair to escape `\` and
delimiter `"`, clears the error counter and enters `BOX`; after `box`, any
sequence of delimiter changes, and `end`, the scanner is back in `INITIAL`
with the default delimiter pair. -/
theorem c6_box_end_reset (s : Session) (specs : List (List Char)) :
    (boxRule s).1.extra.yyerrcnt = 0
    ∧ (boxRule s).1.state = LexState.BOX
    ∧ (boxRule s).1.extra.sesc = '\\' ∧ (boxRule s).1.extra.sdel = '"'
    ∧ (endRule (specs.foldl (fun t sp => (delimspecRule t sp).1) (boxRule s).1)).1.state
        = LexState.INITIAL
    ∧ (endRule (specs.foldl (fun t sp => (delimspecRule t sp).1) (boxRule s).1)).1.extra.sesc
        = '\\'
    ∧ (endRule (specs.foldl (fun t sp => (delimspecRule t sp).1) (boxRule s).1)).1.extra.sdel
        = '"' := by
  refine ⟨?_, rfl, ?_, ?_, rfl, ?_, ?_⟩
  · simp [boxRule, change_default]
  · simp [boxRule, change_default]
  · simp [boxRule, change_default]
  · simp [endRule, change_default]
  · simp [endRule, change_default]

/-- C7: any token handed to the `DELIMSPEC` rule moves the scanner to `BOX`
regardless of validity; a valid delimiter-change command yields `YDELIMSPEC`
and an invalid one still yields a token, namely `YUNREC`. -/
theorem c7_delimspec_always_box (s : Session) (spec : List Char) :
    (delimspecRule s spec).1.state = LexState.BOX
    ∧ ((delimspecRule s spec).2 = Token.ydelimspec ↔
        ∃ a b, spec = [a, b] ∧ a ≠ b ∧ b ∈ LEX_SDELIM)
    ∧ ((delimspecRule s spec).2 = Token.ydelimspec
        ∨ (delimspecRule s spec).2 = Token.yunrec) := by
  have hiff := change_eq_zero_iff s.extra spec
  by_cases h : (change_string_delimiters s.extra spec).1 = 0
  · refine ⟨rfl, ?_, Or.inl (by simp [delimspecRule, h])⟩
    simpa [delimspecRule, h] using hiff.mp h
  · have htok : (delimspecRule s spec).2 = Token.yunrec := by simp [delimspecRule, h]
    refine ⟨rfl, ?_, Or.inr htok⟩
    rw [htok]
    constructor
    · intro habs
      exact absurd habs (by decide)
    · intro hex
      exact absurd (hiff.mpr hex) h

lemma psOk_cons {e d : Char} {b : Bool} {c : Char} {ps : List (Bool × Char)}
    (h : psOk e d ((b, c) :: ps) = true) :
    (b = true ∨ (c ≠ e ∧ c ≠ d)) ∧ psOk e d ps = true := by
  simp only [psOk, Bool.and_eq_true, Bool.or_eq_true, decide_eq_true_eq] at h
  exact h

lemma escEncode_nil (e : Char) : escEncode e [] = [] := rfl

lemma escEncode_cons_true (e c : Char) (ps : List (Bool × Char)) :
    escEncode e ((true, c) :: ps) = e :: c :: escEncode e ps := rfl

lemma escEncode_cons_false (e c : Char) (ps : List (Bool × Char)) :
    escEncode e ((false, c) :: ps) = c :: escEncode e ps := rfl

lemma scanStringLoop_esc (e d k : Char) (rest : List Char) :
    scanStringLoop e d (e :: k :: rest)
      = (scanStringLoop e d rest).map (fun pr => (k :: pr.1, pr.2 + 2)) := by
  conv_lhs => unfold scanStringLoop
  rw [if_pos rfl]

lemma scanStringLoop_esc_last (e d : Char) : scanStringLoop e d [e] = none := by
  conv_lhs => unfold scanStringLoop
  rw [if_pos rfl]

lemma scanStringLoop_delim (e d : Char) (hde : d ≠ e) (rest : List Char) :
    scanStringLoop e d (d :: rest) = some ([], 1) := by
  conv_lhs => unfold scanStringLoop
  rw [if_neg hde, if_pos rfl]

lemma scanStringLoop_plain (e d c : Char) (hce : c ≠ e) (hcd : c ≠ d)
    (rest : List Char) :
    scanStringLoop e d (c :: rest)
      = (scanStringLoop e d rest).map (fun pr => (c :: pr.1, pr.2 + 1)) := by
  conv_lhs => unfold scanStringLoop
  rw [if_neg hce, if_neg hcd]

lemma scanStringLoop_escEncode (e d : Char) (hed : e ≠ d) (ps : List (Bool × Char)) :
    ∀ rest : List Char, psOk e d ps = true →
      scanStringLoop e d (escEncode e ps ++ d :: rest)
        = some (ps.map Prod.snd, (escEncode e ps).length + 1) := by
  induction ps with
  | nil =>
    intro rest _
    rw [escEncode_nil, List.nil_append, scanStringLoop_delim e d (Ne.symm hed)]
    rfl
  | cons bc ps ih =>
    obtain ⟨b, c⟩ := bc
    intro rest hok
    obtain ⟨hb, hok'⟩ := psOk_cons hok
    cases b with
    | true =>
      rw [escEncode_cons_true, List.cons_append, List.cons_append,
        scanStringLoop_esc, ih rest hok']
      simp only [Option.map_some', List.map_cons, List.length_cons]
    | false =>
      obtain ⟨hce, hcd⟩ := hb.resolve_left (by simp)
      rw [escEncode_cons_false, List.cons_append,
        scanStringLoop_plain e d c hce hcd, ih rest hok']
      simp only [Option.map_some', List.map_cons, List.length_cons]

/-- C2: the string rule's decoding — each occurrence of the registered escape
character is deleted and the character after it kept verbatim, and the payload
ends at the first unescaped delimiter. Stated over all encoded payloads: for
any sequence of escaped (`(true, c)`, written escape-then-`c`) and plain
(`(false, c)`, with `c` neither escape nor delimiter) characters followed by
the closing delimiter, the scanner returns exactly the intended characters. -/
theorem c2_string_decode (e d : Char) (ps : List (Bool × Char)) (rest : List Char)
    (hed : e ≠ d) (hok : psOk e d ps = true) :
    scanString e d (escEncode e ps ++ d :: rest) = some (ps.map Prod.snd) := by
  unfold scanString
  rw [scanStringLoop_escEncode e d hed ps rest hok]
  rfl

theorem c2_string_decode_witness :
    scanString '\\' '"' "a\\\"b\\\\c\"".toList = some "a\"b\\c".toList := by
  have h := c2_string_decode '\\' '"'
      [(false, 'a'), (true, '"'), (false, 'b'), (true, '\\'), (false, 'c')] []
      (by decide) (by decide)
  have e1 : "a\\\"b\\\\c\"".toList
      = escEncode '\\' [(false, 'a'), (true, '"'), (false, 'b'), (true, '\\'), (false, 'c')]
          ++ '"' :: [] := by decide
  have e2 : "a\"b\\c".toList
      = ([(false, 'a'), (true, '"'), (false, 'b'), (true, '\\'), (false, 'c')].map
          Prod.snd : List Char) := by decide
  rw [e1, e2]
  exact h

lemma scanStringLoop_escEncode_none (e d : Char) (ps : List (Bool × Char)) :
    ∀ tail : List Char, scanStringLoop e d tail = none → psOk e d ps = true →
      scanStringLoop e d (escEncode e ps ++ tail) = none := by
  induction ps with
  | nil =>
    intro tail ht _
    simpa [escEncode] using ht
  | cons bc ps ih =>
    obtain ⟨b, c⟩ := bc
    intro tail ht hok
    obtain ⟨hb, hok'⟩ := psOk_cons hok
    cases b with
    | true =>
      rw [escEncode_cons_true, List.cons_append, List.cons_append,
        scanStringLoop_esc, ih tail ht hok']
      rfl
    | false =>
      obtain ⟨hce, hcd⟩ := hb.resolve_left (by simp)
      rw [escEncode_cons_false, List.cons_append,
        scanStringLoop_plain e d c hce hcd, ih tail ht hok']
      rfl

/-- C4: a string body with no unescaped delimiter before end of line is
unterminated — both in general (any well-formed encoding with no closing
delimiter, also with a trailing escape character as last character) — and the
string rule then returns exactly one `YUNREC` token, emits the diagnostic only
while the error counter is below the limit, increments the counter and keeps
the whole matched line consumed (so scanning resumes on the next line). -/
theorem c4_unterminated_string (extra : pass_to_flex) (ps : List (Bool × Char))
    (cs : List Char)
    (hok : psOk extra.sesc extra.sdel ps = true)
    (hcs : scanString extra.sesc extra.sdel cs = none) :
    scanString extra.sesc extra.sdel (escEncode extra.sesc ps) = none
    ∧ scanString extra.sesc extra.sdel (escEncode extra.sesc ps ++ [extra.sesc]) = none
    ∧ stringRule extra (extra.sdel :: cs)
        = some ⟨Token.yunrec, { extra with yyerrcnt := extra.yyerrcnt + 1 },
                if extra.yyerrcnt < 5 then ["Unterminated String"] else [],
                cs.length + 1⟩ := by
  have hloop : scanStringLoop extra.sesc extra.sdel cs = none := by
    unfold scanString at hcs
    exact Option.map_eq_none'.mp hcs
  refine ⟨?_, ?_, ?_⟩
  · have h0 : scanStringLoop extra.sesc extra.sdel [] = none := rfl
    have hm := scanStringLoop_escEncode_none extra.sesc extra.sdel ps [] h0 hok
    rw [List.append_nil] at hm
    unfold scanString
    rw [hm]
    rfl
  · have h1 : scanStringLoop extra.sesc extra.sdel [extra.sesc] = none := by
      simp [scanStringLoop]
    have hm := scanStringLoop_escEncode_none extra.sesc extra.sdel ps [extra.sesc] h1 hok
    unfold scanString
    rw [hm]
    rfl
  · simp [stringRule, hloop]

theorem c4_unterminated_string_witness :
    scanString '\\' '"' (escEncode '\\' [(true, '"'), (false, 'a')]) = none
    ∧ scanString '\\' '"' (escEncode '\\' [(true, '"'), (false, 'a')] ++ ['\\']) = none
    ∧ stringRule ⟨0, '"', '\\'⟩ ('"' :: "abc".toList)
        = some ⟨Token.yunrec, ⟨1, '"', '\\'⟩, ["Unterminated String"], 4⟩ := by
  have h := c4_unterminated_string ⟨0, '"', '\\'⟩ [(true, '"'), (false, 'a')]
      "abc".toList (by decide) (by decide)
  exact ⟨h.1, h.2.1, h.2.2.trans (by decide)⟩

lemma stringSession_malformed (ls : List (List Char)) :
    ∀ extra : pass_to_flex,
      (∀ l ∈ ls, l.head? = some extra.sdel
        ∧ scanString extra.sesc extra.sdel l.tail = none) →
      (stringSession extra ls).1 = List.replicate ls.length Token.yunrec
      ∧ (stringSession extra ls).2.1.length
          = min (extra.yyerrcnt + ls.length) 5 - min extra.yyerrcnt 5
      ∧ (stringSession extra ls).2.2.yyerrcnt = extra.yyerrcnt + ls.length
      ∧ (stringSession extra ls).2.2.sdel = extra.sdel
      ∧ (stringSession extra ls).2.2.sesc = extra.sesc := by
  induction ls with
  | nil =>
    intro extra _
    exact ⟨rfl, by simp [stringSession], by simp [stringSession], rfl, rfl⟩
  | cons l ls ih =>
    intro extra h
    obtain ⟨hhead, hnone⟩ := h l (List.mem_cons_self l ls)
    have hrest : ∀ l' ∈ ls, l'.head? = some extra.sdel
        ∧ scanString extra.sesc extra.sdel l'.tail = none :=
      fun l' hl' => h l' (List.mem_cons_of_mem l hl')
    cases l with
    | nil => simp at hhead
    | cons c cs =>
      have hc : c = extra.sdel := by simpa using hhead
      subst hc
      have hloop : scanStringLoop extra.sesc extra.sdel cs = none :=
        Option.map_eq_none'.mp hnone
      have hrule : stringRule extra (extra.sdel :: cs)
          = some ⟨Token.yunrec, { extra with yyerrcnt := extra.yyerrcnt + 1 },
                  if extra.yyerrcnt < 5 then ["Unterminated String"] else [],
                  cs.length + 1⟩ := by
        simp [stringRule, hloop]
      obtain ⟨ih1, ih2, ih3, ih4, ih5⟩ :=
        ih { extra with yyerrcnt := extra.yyerrcnt + 1 } hrest
      simp only [stringSession, hrule]
      refine ⟨?_, ?_, ?_, ?_, ?_⟩
      · simp [ih1, List.replicate_succ]
      · rw [List.length_append, ih2]
        by_cases h5 : extra.yyerrcnt < 5 <;> simp [h5] <;> omega
      · rw [ih3]
        simp only [List.length_cons]
        omega
      · exact ih4
      · exact ih5

/-- C5: within one scan session started with a cleared error counter, feeding
any number of malformed strings produces exactly one `YUNREC` token per
malformed string, while the number of diagnostics emitted is capped by the
fixed suppression threshold (the literal 5 of the `yyerrcnt` checks). -/
theorem c5_diag_rate_limit (extra : pass_to_flex) (ls : List (List Char))
    (h0 : extra.yyerrcnt = 0)
    (h : ∀ l ∈ ls, l.head? = some extra.sdel
        ∧ scanString extra.sesc extra.sdel l.tail = none) :
    (stringSession extra ls).1 = List.replicate ls.length Token.yunrec
    ∧ (stringSession extra ls).2.1.length = min ls.length 5
    ∧ (stringSession extra ls).2.1.length ≤ 5 := by
  obtain ⟨h1, h2, -⟩ := stringSession_malformed ls extra h
  rw [h0] at h2
  refine ⟨h1, ?_, ?_⟩
  · rw [h2]
    omega
  · rw [h2]
    omega

theorem c5_diag_rate_limit_witness :
    (stringSession ⟨0, '"', '\\'⟩ (List.replicate 7 "\"ab".toList)).1
        = List.replicate 7 Token.yunrec
    ∧ (stringSession ⟨0, '"', '\\'⟩ (List.replicate 7 "\"ab".toList)).2.1.length = 5
    ∧ (stringSession ⟨0, '"', '\\'⟩ (List.replicate 7 "\"ab".toList)).2.1.length ≤ 5 := by
  have h := c5_diag_rate_limit ⟨0, '"', '\\'⟩ (List.replicate 7 "\"ab".toList)
      rfl (by decide)
  exact ⟨h.1, h.2.1.trans (by decide), h.2.2⟩

lemma sessionRun_errors (evs : List LexEvent) :
    ∀ extra : pass_to_flex,
      (∀ e ∈ evs, errEventOk extra.sdel extra.sesc e = true) →
      (sessionRun extra evs).1.yyerrcnt = extra.yyerrcnt + evs.length
      ∧ (sessionRun extra evs).1.sdel = extra.sdel
      ∧ (sessionRun extra evs).1.sesc = extra.sesc
      ∧ (sessionRun extra evs).2.length
          = min (extra.yyerrcnt + evs.length) 5 - min extra.yyerrcnt 5 := by
  induction evs with
  | nil =>
    intro extra _
    exact ⟨by simp [sessionRun], rfl, rfl, by simp [sessionRun]⟩
  | cons ev evs ih =>
    intro extra h
    have hev := h ev (List.mem_cons_self ev evs)
    have hrest : ∀ e' ∈ evs, errEventOk extra.sdel extra.sesc e' = true :=
      fun e' he' => h e' (List.mem_cons_of_mem ev he')
    have key : ∃ msg : String,
        sessionStep extra ev
          = ({ extra with yyerrcnt := extra.yyerrcnt + 1 },
             if extra.yyerrcnt < 5 then [msg] else []) := by
      cases ev with
      | malformedString l =>
        rw [errEventOk, Bool.and_eq_true, decide_eq_true_eq,
          Option.isNone_iff_eq_none] at hev
        obtain ⟨hhead, hnone⟩ := hev
        cases l with
        | nil => simp at hhead
        | cons c cs =>
          have hc : c = extra.sdel := by simpa using hhead
          subst hc
          have hloop : scanStringLoop extra.sesc extra.sdel cs = none :=
            Option.map_eq_none'.mp hnone
          exact ⟨"Unterminated String", by simp [sessionStep, stringRule, hloop]⟩
      | emptySampleEnd =>
        have hb : btrim ['\n'] = [] := by decide
        exact ⟨"SAMPLE block must not be empty",
          by simp [sessionStep, sampleEndsAction, hb]⟩
      | boxKeyword => exact absurd hev (by simp [errEventOk])
      | endKeyword => exact absurd hev (by simp [errEventOk])
    obtain ⟨msg, hstep⟩ := key
    obtain ⟨ih1, ih2, ih3, ih4⟩ := ih { extra with yyerrcnt := extra.yyerrcnt + 1 } hrest
    simp only [sessionRun, hstep]
    refine ⟨?_, ih2, ih3, ?_⟩
    · rw [ih1]
      simp only [List.length_cons]
      omega
    · rw [List.length_append, ih4]
      by_cases h5 : extra.yyerrcnt < 5 <;> simp [h5] <;> omega

/-- C10: the unterminated-string diagnostic and the empty-sample diagnostic
share one per-session error counter: any interleaving of the two error kinds
increments the same counter once per event and is suppressed as soon as that
shared counter reaches the threshold (so the total number of diagnostics
depends only on the initial counter and the number of error events, not on
their kinds); the counter is reset by the `box` keyword and left unchanged by
the `end` keyword. -/
theorem c10_shared_error_counter (extra : pass_to_flex) (evs : List LexEvent)
    (h : ∀ e ∈ evs, errEventOk extra.sdel extra.sesc e = true) :
    (sessionRun extra evs).1.yyerrcnt = extra.yyerrcnt + evs.length
    ∧ (sessionRun extra evs).2.length
        = min (extra.yyerrcnt + evs.length) 5 - min extra.yyerrcnt 5
    ∧ (∀ e2 : pass_to_flex, (sessionStep e2 LexEvent.boxKeyword).1.yyerrcnt = 0)
    ∧ (∀ e2 : pass_to_flex,
        (sessionStep e2 LexEvent.endKeyword).1.yyerrcnt = e2.yyerrcnt) := by
  obtain ⟨h1, -, -, h4⟩ := sessionRun_errors evs extra h
  refine ⟨h1, h4, ?_, ?_⟩
  · intro e2
    simp [sessionStep, change_default]
  · intro e2
    simp [sessionStep, change_default]

theorem c10_shared_error_counter_witness :
    (sessionRun ⟨0, '"', '\\'⟩
        [LexEvent.malformedString "\"a".toList, LexEvent.emptySampleEnd,
         LexEvent.malformedString "\"b".toList, LexEvent.emptySampleEnd,
         LexEvent.emptySampleEnd, LexEvent.malformedString "\"c".toList]).1.yyerrcnt = 6
    ∧ (sessionRun ⟨0, '"', '\\'⟩
        [LexEvent.malformedString "\"a".toList, LexEvent.emptySampleEnd,
         LexEvent.malformedString "\"b".toList, LexEvent.emptySampleEnd,
         LexEvent.emptySampleEnd, LexEvent.malformedString "\"c".toList]).2.length
        = min (0 + 6) 5 - min 0 5
    ∧ (∀ e2 : pass_to_flex, (sessionStep e2 LexEvent.boxKeyword).1.yyerrcnt = 0)
    ∧ (∀ e2 : pass_to_flex,
        (sessionStep e2 LexEvent.endKeyword).1.yyerrcnt = e2.yyerrcnt) :=
  c10_shared_error_counter ⟨0, '"', '\\'⟩
    [LexEvent.malformedString "\"a".toList, LexEvent.emptySampleEnd,
     LexEvent.malformedString "\"b".toList, LexEvent.emptySampleEnd,
     LexEvent.emptySampleEnd, LexEvent.malformedString "\"c".toList] (by decide)

lemma dropWhile_head?_not {α : Type} (p : α → Bool) (l : List α) :
    ∀ c, (l.dropWhile p).head? = some c → p c = false := by
  induction l with
  | nil =>
    intro c h
    simp [List.dropWhile] at h
  | cons a t ih =>
    intro c h
    by_cases hp : p a = true
    · rw [List.dropWhile_cons_of_pos hp] at h
      exact ih c h
    · rw [List.dropWhile_cons_of_neg hp] at h
      have : a = c := by simpa using h
      subst this
      simpa using hp

lemma dropWhile_idem {α : Type} (p : α → Bool) (l : List α) :
    (l.dropWhile p).dropWhile p = l.dropWhile p := by
  cases hd : l.dropWhile p with
  | nil => rfl
  | cons a t =>
    have ha : p a = false := dropWhile_head?_not p l a (by rw [hd]; rfl)
    rw [List.dropWhile_cons_of_neg (by simp [ha])]

lemma btrim_append_nl (l : List Char) : btrim (l ++ ['\n']) = btrim l := by
  unfold btrim
  have h : (l ++ ['\n']).reverse = '\n' :: l.reverse := by simp
  rw [h, List.dropWhile_cons_of_pos (by decide)]

lemma btrim_eq_nil_iff (l : List Char) : btrim l = [] ↔ l.all isWsChar = true := by
  unfold btrim
  rw [List.reverse_eq_nil_iff, List.dropWhile_eq_nil_iff, List.all_eq_true]
  constructor
  · intro h x hx
    exact h x (List.mem_reverse.mpr hx)
  · intro h x hx
    exact h x (List.mem_reverse.mp hx)

lemma btrim_decomp (l : List Char) :
    l = btrim l ++ (l.reverse.takeWhile isWsChar).reverse
    ∧ ((l.reverse.takeWhile isWsChar).reverse).all isWsChar = true := by
  constructor
  · calc l = l.reverse.reverse := (List.reverse_reverse l).symm
    _ = (l.reverse.takeWhile isWsChar ++ l.reverse.dropWhile isWsChar).reverse := by
        rw [List.takeWhile_append_dropWhile]
    _ = (l.reverse.dropWhile isWsChar).reverse
          ++ (l.reverse.takeWhile isWsChar).reverse := by
        rw [List.reverse_append]
    _ = btrim l ++ (l.reverse.takeWhile isWsChar).reverse := rfl
  · rw [List.all_eq_true]
    intro x hx
    exact List.mem_takeWhile_imp (List.mem_reverse.mp hx)

lemma btrim_getLast?_not (l : List Char) :
    ∀ c, (btrim l).getLast? = some c → isWsChar c = false := by
  intro c h
  unfold btrim at h
  rw [List.getLast?_reverse] at h
  exact dropWhile_head?_not isWsChar l.reverse c h

lemma bxs_rtrim_btrim (l : List Char) : bxs_rtrim (btrim l) = btrim l := by
  unfold bxs_rtrim btrim
  rw [List.reverse_reverse, dropWhile_idem]

/-- C8: the sample terminator action — when the accumulated content (plus the
terminator line's leading whitespace) is all whitespace, i.e. empty after
trimming (terminator immediately, or blank lines only), it yields `YUNREC` and
the `SAMPLE block must not be empty` diagnostic (rate limited) instead of a
text token; otherwise it yields a text token whose payload is the accumulated
content with the trailing whitespace (trailing blank lines included) stripped
and exactly one newline appended — the payload body is a prefix of the content
from which only whitespace was dropped, and ends in a non-whitespace character. -/
theorem c8_sample_trimming (extra : pass_to_flex) (acc ws1 : List Char) :
    ((acc ++ ws1).all isWsChar = true →
      sampleEndsAction extra acc ws1
        = (Token.yunrec,
           if extra.yyerrcnt < 5 then ["SAMPLE block must not be empty"] else [],
           { extra with yyerrcnt := extra.yyerrcnt + 1 }))
    ∧ ((acc ++ ws1).all isWsChar = false →
      sampleEndsAction extra acc ws1
        = (Token.string (btrim (acc ++ ws1) ++ ['\n']), [], extra)
      ∧ (∃ t : List Char, acc ++ ws1 = btrim (acc ++ ws1) ++ t ∧ t.all isWsChar = true)
      ∧ (∀ c, (btrim (acc ++ ws1)).getLast? = some c → isWsChar c = false)) := by
  have hs : btrim (acc ++ ws1 ++ ['\n']) = btrim (acc ++ ws1) := btrim_append_nl _
  constructor
  · intro hall
    have hnil : btrim (acc ++ ws1) = [] := (btrim_eq_nil_iff _).mpr hall
    unfold sampleEndsAction
    rw [hs, hnil]
    simp
  · intro hall
    have hne : btrim (acc ++ ws1) ≠ [] := by
      intro hnil
      rw [(btrim_eq_nil_iff _).mp hnil] at hall
      cases hall
    refine ⟨?_, ?_, btrim_getLast?_not _⟩
    · unfold sampleEndsAction
      rw [hs, if_neg (by simpa [List.isEmpty_iff] using hne), bxs_rtrim_btrim]
    · obtain ⟨h1, h2⟩ := btrim_decomp (acc ++ ws1)
      exact ⟨_, h1, h2⟩

/-- C3 (the code against the claim): the whole-line terminator pattern behaves
as claimed (`  ends now` stays sample content, a conforming terminator line
emits the trimmed sample and then the terminator token), but the fallback rule
`ends[ \t\r]*$` also matches `ends` at the end of any content line — so the
non-conforming line `x ends` terminates the block, discarding the accumulated
content without a text token. -/
theorem c3_ends_mid_line_terminates :
    sampleRun ⟨0, '"', '\\'⟩ [] true "x ends\nmore\nends\n".toList 40
      = ([Emit.tok Token.yendsample], ⟨0, '"', '\\'⟩, "\nmore\nends\n".toList)
    ∧ sampleRun ⟨0, '"', '\\'⟩ [] true "a\n  ends now\nends\n".toList 60
      = ([Emit.tok (Token.string "a\n  ends now\n".toList), Emit.tok Token.yendsample],
         ⟨0, '"', '\\'⟩, "\n".toList) :=
  ⟨by decide, by decide⟩

/-- C9 (counterexample): keyword matching is case-insensitive, but the
general-keyword rule's payload is the raw matched text, so `AUTHOR` and
`author` yield tokens with different payloads. -/
theorem c9_keyword_payload_counterexample :
    keywordToken LexState.BOX "AUTHOR".toList ≠ keywordToken LexState.BOX "author".toList
    ∧ keywordToken LexState.BOX "AUTHOR".toList
        = some (Token.keyword "AUTHOR".toList, LexState.BOX)
    ∧ keywordToken LexState.BOX "author".toList
        = some (Token.keyword "author".toList, LexState.BOX) :=
  ⟨by decide, by decide, by decide⟩

lemma optionMap_ite (c : Prop) [Decidable c] (a b : Option (Token × LexState))
    (f : Token × LexState → Token × LexState) :
    (if c then a else b).map f = if c then a.map f else b.map f := by
  split_ifs <;> rfl

set_option maxHeartbeats 1600000 in
/-- C9 (amended): any two spellings of a word that agree up to letter case are
recognized as the same keyword with the same token kind and the same state
transition (payload included for every keyword token except the general-keyword
rule, whose payload keeps the original spelling); in particular an all-caps
`ENDS` line terminates a sample block exactly like `ends`. -/
theorem c9_case_insensitive (st : LexState) (x y : List Char)
    (h : lcStr x = lcStr y) :
    (keywordToken st x).map (fun r => (tokKind r.1, r.2))
      = (keywordToken st y).map (fun r => (tokKind r.1, r.2))
    ∧ sampleRun ⟨0, '"', '\\'⟩ [] true "x\nENDS\n".toList 30
        = sampleRun ⟨0, '"', '\\'⟩ [] true "x\nends\n".toList 30 := by
  refine ⟨?_, by decide⟩
  cases st
  all_goals simp only [keywordToken]
  all_goals try rw [h]
  simp only [optionMap_ite, Option.map_some', Option.map_none', tokKind]

theorem c9_case_insensitive_witness :
    ((keywordToken LexState.BOX "TAGS".toList).map (fun r => (tokKind r.1, r.2))
      = (keywordToken LexState.BOX "tags".toList).map (fun r => (tokKind r.1, r.2)))
    ∧ sampleRun ⟨0, '"', '\\'⟩ [] true "x\nENDS\n".toList 30
        = sampleRun ⟨0, '"', '\\'⟩ [] true "x\nends\n".toList 30 :=
  c9_case_insensitive LexState.BOX "TAGS".toList "tags".toList (by decide)

end Boxes
